import Mathlib

/-!
Shallow embedding of the core of `src/client/fns.go` (package `client` of
the cpu repository): the escape-sequence stdin multiplexer `SSHStdin` and
the bind-specification compiler `parseBinds` with its fragment joiner
`joinFSTab`.  Go strings and byte streams are modelled as `List Char`
(every byte the claims exercise is ASCII, and the code compares bytes only
against ASCII literals, so one list element stands for one byte).
Fallible writers never fail in the model; the session close performed by
the multiplexer is returned as a `Bool`.
-/

/-- Models `strings.Split(s, sep)` for a one-character separator: the list
of substrings between occurrences of `sep`.  On the empty string it
returns `[[]]`, as Go does. -/
def stringsSplit (sep : Char) : List Char → List (List Char)
  | [] => [[]]
  | c :: rest =>
    if c = sep then [] :: stringsSplit sep rest
    else
      match stringsSplit sep rest with
      | [] => [[c]]
      | a :: b => (c :: a) :: b

/-- Models `strings.SplitN(s, sep, 2)` for a one-character separator:
split at the first occurrence of `sep` only; if `sep` does not occur the
result is the singleton `[s]`. -/
def stringsSplitN2 (sep : Char) : List Char → List (List Char)
  | [] => [[]]
  | c :: rest =>
    if c = sep then [[], rest]
    else
      match stringsSplitN2 sep rest with
      | [] => [[c]]
      | a :: b => (c :: a) :: b

/-- Models `strings.Join(elems, sep)`: concatenate the elements with `sep`
between consecutive elements. -/
def stringsJoin (sep : List Char) : List (List Char) → List Char
  | [] => []
  | [t] => t
  | t :: rest => t ++ sep ++ stringsJoin sep rest

/-- Models `strings.TrimRight(s, "\n")`: remove every trailing newline
character. -/
def stringsTrimRightNL (s : List Char) : List Char :=
  (s.reverse.dropWhile (fun c => c == '\n')).reverse

/-- One component step of the lexical path-cleaning algorithm of Go's
`path/filepath.Clean` (Unix rules): the stack of retained components is
kept most-recent-first.  Empty and `.` components are dropped; `..` pops
a poppable component, is dropped at the root, and is kept when nothing
can be popped in a relative path. -/
def cleanStep (rooted : Bool) (stack : List (List Char)) (c : List Char) : List (List Char) :=
  if c = [] ∨ c = ['.'] then stack
  else if c = ['.', '.'] then
    match stack with
    | top :: rest => if top = ['.', '.'] then c :: stack else rest
    | [] => if rooted then [] else [c]
  else c :: stack

/-- Models Go `path/filepath.Clean` on Unix: split on `/`, process the
components with `cleanStep`, and reassemble, mapping an empty result to
`.` (or `/` for a rooted path). -/
def filepathClean (path : List Char) : List Char :=
  if path = [] then ['.']
  else
    let rooted := path.head? = some '/'
    let stack := (stringsSplit '/' path).foldl (cleanStep rooted) []
    let body := stringsJoin ['/'] stack.reverse
    if rooted then
      if body = [] then ['/'] else '/' :: body
    else
      if body = [] then ['.'] else body

/-- Models Go `path/filepath.Join` on Unix: drop leading empty elements,
join the rest with `/`, and clean the result; all-empty input yields the
empty path. -/
def filepathJoin (elems : List (List Char)) : List Char :=
  match elems.dropWhile (fun e => e.isEmpty) with
  | [] => []
  | es => filepathClean (stringsJoin ['/'] es)

/-- The error values `parseBinds` can report, one constructor per
`fmt.Errorf` site in `src/client/fns.go`, carrying the entry index and
(where the Go message includes it) the raw entry text. -/
inductive BindErr : Type
  | zeroLength (i : Nat)
  | emptyElements (i : Nat) (bind : List Char)
  | tooMany (i : Nat) (bind : List Char)
  | emptyLocal (i : Nat) (bind : List Char)
  | emptyRemote (i : Nat) (bind : List Char)
deriving DecidableEq

/-- One emitted fstab line: `fmt.Sprintf("%s %s none defaults,bind 0 0\n",
filepath.Join(tmp, "cpu", remote), local)`. -/
def fstabLine (tmp remote localPath : List Char) : List Char :=
  filepathJoin [tmp, "cpu".data, remote] ++ " ".data ++ localPath
    ++ " none defaults,bind 0 0\n".data

/-- The entry loop of `parseBinds`: processes the `:`-separated entries in
order, accumulating the fstab text, and stops at the first validation
failure, returning the Go function's two results (the fstab string and the
optional error). -/
def parseBindsLoop (tmp : List Char) :
    List (List Char) → Nat → List Char → List Char × Option BindErr
  | [], _, fstab => (fstab, none)
  | bind :: rest, i, fstab =>
    if bind.length = 0 then ([], some (BindErr.zeroLength i))
    else
      match stringsSplitN2 '=' bind with
      | [] => (fstab, some (BindErr.emptyElements i bind))
      | [l] =>
        if l.length = 0 then (fstab, some (BindErr.emptyLocal i bind))
        else if l.length = 0 then (fstab, some (BindErr.emptyRemote i bind))
        else parseBindsLoop tmp rest (i + 1) (fstab ++ fstabLine tmp l l)
      | [l, r] =>
        if l.length = 0 then (fstab, some (BindErr.emptyLocal i bind))
        else if r.length = 0 then (fstab, some (BindErr.emptyRemote i bind))
        else parseBindsLoop tmp rest (i + 1) (fstab ++ fstabLine tmp r l)
      | _ :: _ :: _ :: _ => (fstab, some (BindErr.tooMany i bind))

/-- Models `parseBinds(s, tmp)` of `src/client/fns.go`: compile a
`CPU_NAMESPACE`-style colon-separated bind list into fstab text. -/
def parseBinds (s tmp : List Char) : List Char × Option BindErr :=
  if s.length = 0 then ([], none)
  else parseBindsLoop tmp (stringsSplit ':' s) 0 []

/-- Models `joinFSTab(tables...)` of `src/client/fns.go`: non-empty
fragments are right-trimmed of newlines, then all fragments (the empty
ones included) are joined with `"\n"` and one final `"\n"` is appended. -/
def joinFSTab (tables : List (List Char)) : List Char :=
  if tables.length = 0 then []
  else
    stringsJoin ['\n']
      (tables.map (fun t => if t.length = 0 then t else stringsTrimRightNL t))
      ++ ['\n']

/-- The byte loop of `SSHStdin` in `src/client/fns.go`, with the two
mutable flags `newLine` and `tilde` passed explicitly.  The result is the
byte sequence written to the output together with a flag recording whether
`c.session.Close()` was called (the `~.` escape). -/
def sshStdinLoop : List Char → Bool → Bool → List Char × Bool
  | [], _, _ => ([], false)
  | b :: rest, newLine, tilde =>
    if b = '\n' ∨ b = '\r' then
      ((b :: (sshStdinLoop rest true tilde).1), (sshStdinLoop rest true tilde).2)
    else if b = '~' then
      if newLine then sshStdinLoop rest false true
      else
        (('~' :: (sshStdinLoop rest newLine tilde).1), (sshStdinLoop rest newLine tilde).2)
    else if b = '.' then
      if tilde then ([], true)
      else
        (('.' :: (sshStdinLoop rest newLine tilde).1), (sshStdinLoop rest newLine tilde).2)
    else
      ((if tilde then ['~', b] else [b]) ++ (sshStdinLoop rest false false).1,
        (sshStdinLoop rest false false).2)

/-- Models `SSHStdin`: the relay starts with both flags false (the Go
zero value of `var newLine, tilde bool`). -/
def SSHStdin (input : List Char) : List Char × Bool :=
  sshStdinLoop input false false

example : SSHStdin "hello\n".data = ("hello\n".data, false) := by decide
example : SSHStdin "~.".data = ("~.".data, false) := by decide
example : SSHStdin "\n~.".data = (['\n'], true) := by decide
example : SSHStdin "a~.b".data = ("a~.b".data, false) := by decide
example : SSHStdin "\n~x".data = ("\n~x".data, false) := by decide
example : SSHStdin "\n~\n.".data = ("\n\n".data, true) := by decide
example : SSHStdin "\n.~.".data = ("\n.".data, true) := by decide

example : parseBinds "a=b".data "/tmp".data =
    ("/tmp/cpu/b a none defaults,bind 0 0\n".data, none) := by decide
example : parseBinds "x=..".data "/r".data =
    ("/r x none defaults,bind 0 0\n".data, none) := by decide
example : parseBinds "a=b:c=".data "/tmp".data =
    ("/tmp/cpu/b a none defaults,bind 0 0\n".data,
      some (BindErr.emptyRemote 1 "c=".data)) := by decide
example : parseBinds ":".data "/tmp".data = ([], some (BindErr.zeroLength 0)) := by decide
example : parseBinds "a::b".data "/tmp".data =
    ([], some (BindErr.zeroLength 1)) := by decide
example : parseBinds "a=b=c".data "/tmp".data =
    ("/tmp/cpu/b=c a none defaults,bind 0 0\n".data, none) := by decide
example : parseBinds "=a=b".data "/tmp".data =
    ([], some (BindErr.emptyLocal 0 "=a=b".data)) := by decide

example : joinFSTab [] = [] := by decide
example : joinFSTab [[]] = ['\n'] := by decide
example : joinFSTab [[], []] = ['\n', '\n'] := by decide
example : joinFSTab ["a".data, [], "b".data] = "a\n\nb\n".data := by decide
example : joinFSTab ["a\n\n".data, "b".data] = "a\nb\n".data := by decide
example : joinFSTab [joinFSTab []] = ['\n'] := by decide

/-! ### Multiplexer claims -/

/-- C1 counterexample: the claim says that input `"~."` at the very start
of the stream closes the session and forwards zero bytes; on the code the
flags start false, so neither holds at this input. -/
theorem sshStdin_start_escape_not_recognized :
    ¬ ((SSHStdin "~.".data).1 = [] ∧ (SSHStdin "~.".data).2 = true) := by decide

/-- C1 (amended): at the start of a relay both flags are false (state
`Normal`), so an input stream beginning with the two bytes `~` `.` has
both bytes forwarded, the session is not closed, and relaying continues
from the initial state. -/
theorem sshStdin_start_state_normal :
    SSHStdin "~.".data = ("~.".data, false) ∧
    ∀ rest : List Char, SSHStdin ('~' :: '.' :: rest) =
      ('~' :: '.' :: (SSHStdin rest).1, (SSHStdin rest).2) := by
  refine ⟨by decide, fun rest => ?_⟩
  rfl

/-- C10 (confirmed): line terminators read while an escape is pending do
not clear the `tilde` flag: they are forwarded and the pending escape
survives, so input `"\n~\n."` forwards only the two line terminators and
then closes the session on the `.`. -/
theorem sshStdin_pending_survives_line_terminators :
    SSHStdin "\n~\n.".data = ("\n\n".data, true) ∧
    (∀ (rest : List Char) (nl : Bool), sshStdinLoop ('\n' :: rest) nl true =
      ('\n' :: (sshStdinLoop rest true true).1, (sshStdinLoop rest true true).2)) ∧
    (∀ (rest : List Char) (nl : Bool), sshStdinLoop ('\r' :: rest) nl true =
      ('\r' :: (sshStdinLoop rest true true).1, (sshStdinLoop rest true true).2)) := by
  refine ⟨by decide, fun rest nl => ?_, fun rest nl => ?_⟩ <;> rfl

/-- C4 counterexample: the claim says `"\n~x"` is forwarded unchanged for
every non-`.` byte `x`, including line terminators; on the code the
buffered `~` is not re-emitted before a line terminator, so the output
for `"\n~\n"` lacks the `~`. -/
theorem sshStdin_pending_terminator_no_flush :
    (SSHStdin "\n~\n".data).1 ≠ "\n~\n".data := by decide

/-- C4 (amended): when an escape is pending and the next byte is none of
`.`, `~`, `\n`, `\r`, the buffered `~` is forwarded before that byte and
the state returns to `Normal`; but a line terminator or a `~` read while
the escape is pending is forwarded without re-emitting the buffered `~`,
which stays pending. -/
theorem sshStdin_pending_flush_only_ordinary :
    (∀ (x : Char) (rest : List Char), x ≠ '.' → x ≠ '~' → x ≠ '\n' → x ≠ '\r' →
      SSHStdin ('\n' :: '~' :: x :: rest) =
        ('\n' :: '~' :: x :: (sshStdinLoop rest false false).1,
          (sshStdinLoop rest false false).2)) ∧
    (∀ rest : List Char, sshStdinLoop ('~' :: rest) false true =
      ('~' :: (sshStdinLoop rest false true).1, (sshStdinLoop rest false true).2)) ∧
    SSHStdin "\n~x".data = ("\n~x".data, false) := by
  refine ⟨fun x rest h1 h2 h3 h4 => ?_, fun rest => rfl, by decide⟩
  simp [SSHStdin, sshStdinLoop, h1, h2, h3, h4]

/-- C4 witness: the amended theorem applied at `x = 'y'`. -/
theorem sshStdin_pending_flush_only_ordinary_witness :
    SSHStdin ('\n' :: '~' :: 'y' :: []) =
      ('\n' :: '~' :: 'y' :: (sshStdinLoop [] false false).1,
        (sshStdinLoop [] false false).2) :=
  sshStdin_pending_flush_only_ordinary.1 'y' [] (by decide) (by decide) (by decide)
    (by decide)

/-- C5 counterexample: the claim says a `~` not immediately preceded by a
line terminator is forwarded as ordinary data and `~.` elsewhere does not
close the session; but `.` does not clear the `newLine` flag, so in
`"\n.~."` the `~` (preceded by `.`) is withheld and the session closes. -/
theorem sshStdin_tilde_after_dot_buffered :
    '~' ∉ (SSHStdin "\n.~.".data).1 ∧ (SSHStdin "\n.~.".data).2 = true := by decide

/-- C5 (amended): a `~` is buffered only when the `newLine` flag is set;
the flag is set by line terminators and survives `.` bytes, but any other
byte (including a `~`) clears it, so a `~` preceded by an ordinary byte,
or read as the very first byte, is forwarded immediately; `"a~.b"` is
forwarded unchanged without closing the session. -/
theorem sshStdin_tilde_buffering_rule :
    (∀ (b : Char) (rest : List Char) (nl t : Bool),
      b ≠ '\n' → b ≠ '\r' → b ≠ '.' → b ≠ '~' →
      sshStdinLoop (b :: '~' :: rest) nl t =
        ((if t then ['~', b] else [b]) ++ '~' :: (sshStdinLoop rest false false).1,
          (sshStdinLoop rest false false).2)) ∧
    (∀ rest : List Char, SSHStdin ('~' :: rest) =
      ('~' :: (SSHStdin rest).1, (SSHStdin rest).2)) ∧
    SSHStdin "a~.b".data = ("a~.b".data, false) := by
  refine ⟨fun b rest nl t h1 h2 h3 h4 => ?_, fun rest => rfl, by decide⟩
  simp [sshStdinLoop, h1, h2, h3, h4]

/-- C5 witness: the amended theorem applied at `b = 'a'`. -/
theorem sshStdin_tilde_buffering_rule_witness :
    sshStdinLoop ('a' :: '~' :: []) false false =
      ((if false then ['~', 'a'] else ['a']) ++ '~' :: (sshStdinLoop [] false false).1,
        (sshStdinLoop [] false false).2) :=
  sshStdin_tilde_buffering_rule.1 'a' [] false false (by decide) (by decide) (by decide)
    (by decide)

/-! ### Bind-compiler helper lemmas -/

/-- A string containing no occurrence of the separator splits into itself. -/
theorem stringsSplit_no_sep (sep : Char) :
    ∀ s : List Char, sep ∉ s → stringsSplit sep s = [s] := by
  intro s
  induction s with
  | nil => intro _; rfl
  | cons c rest ih =>
    intro h
    rw [List.mem_cons, not_or] at h
    have hc : ¬ c = sep := fun e => h.1 e.symm
    simp [stringsSplit, hc, ih h.2]

/-- Splitting at the first separator: everything before the first `sep`
becomes the first field and the whole remainder the second. -/
theorem stringsSplitN2_first (sep : Char) :
    ∀ a b : List Char, sep ∉ a → stringsSplitN2 sep (a ++ sep :: b) = [a, b] := by
  intro a
  induction a with
  | nil => intro b _; simp [stringsSplitN2]
  | cons c rest ih =>
    intro b h
    rw [List.mem_cons, not_or] at h
    have hc : ¬ c = sep := fun e => h.1 e.symm
    simp [stringsSplitN2, hc, ih b h.2]

/-- `stringsSplitN2` always produces one or two fields. -/
theorem stringsSplitN2_shape (sep : Char) :
    ∀ s : List Char, (∃ x, stringsSplitN2 sep s = [x]) ∨
      ∃ x y, stringsSplitN2 sep s = [x, y] := by
  intro s
  induction s with
  | nil => exact Or.inl ⟨[], rfl⟩
  | cons c rest ih =>
    by_cases hc : c = sep
    · exact Or.inr ⟨[], rest, by simp [stringsSplitN2, hc]⟩
    · rcases ih with ⟨x, hx⟩ | ⟨x, y, hxy⟩
      · exact Or.inl ⟨c :: x, by simp [stringsSplitN2, hc, hx]⟩
      · exact Or.inr ⟨c :: x, y, by simp [stringsSplitN2, hc, hxy]⟩

/-- Error inventory of the entry loop: the fstab component is empty
whenever a zero-length-entry error is reported, and the two defensive
errors are never reported. -/
theorem parseBindsLoop_errs (tmp : List Char) :
    ∀ (binds : List (List Char)) (i : Nat) (fstab : List Char),
      (∀ j, (parseBindsLoop tmp binds i fstab).2 = some (BindErr.zeroLength j) →
        (parseBindsLoop tmp binds i fstab).1 = []) ∧
      (∀ j b, (parseBindsLoop tmp binds i fstab).2 ≠ some (BindErr.emptyElements j b)) ∧
      (∀ j b, (parseBindsLoop tmp binds i fstab).2 ≠ some (BindErr.tooMany j b)) := by
  intro binds
  induction binds with
  | nil =>
    intro i fstab
    refine ⟨?_, ?_, ?_⟩ <;> simp [parseBindsLoop]
  | cons bind rest ih =>
    intro i fstab
    by_cases h0 : bind.length = 0
    · refine ⟨?_, ?_, ?_⟩ <;> simp [parseBindsLoop, h0]
    · rcases stringsSplitN2_shape '=' bind with ⟨l, hl⟩ | ⟨l, r, hlr⟩
      · by_cases hl0 : l.length = 0
        · have hres : parseBindsLoop tmp (bind :: rest) i fstab =
              (fstab, some (BindErr.emptyLocal i bind)) := by
            simp [parseBindsLoop, h0, hl, hl0]
          rw [hres]
          refine ⟨?_, ?_, ?_⟩ <;> simp
        · have hres : parseBindsLoop tmp (bind :: rest) i fstab =
              parseBindsLoop tmp rest (i + 1) (fstab ++ fstabLine tmp l l) := by
            simp [parseBindsLoop, h0, hl, hl0]
          rw [hres]
          exact ih (i + 1) (fstab ++ fstabLine tmp l l)
      · by_cases hl0 : l.length = 0
        · have hres : parseBindsLoop tmp (bind :: rest) i fstab =
              (fstab, some (BindErr.emptyLocal i bind)) := by
            simp [parseBindsLoop, h0, hlr, hl0]
          rw [hres]
          refine ⟨?_, ?_, ?_⟩ <;> simp
        · by_cases hr0 : r.length = 0
          · have hres : parseBindsLoop tmp (bind :: rest) i fstab =
                (fstab, some (BindErr.emptyRemote i bind)) := by
              simp [parseBindsLoop, h0, hlr, hl0, hr0]
            rw [hres]
            refine ⟨?_, ?_, ?_⟩ <;> simp
          · have hres : parseBindsLoop tmp (bind :: rest) i fstab =
                parseBindsLoop tmp rest (i + 1) (fstab ++ fstabLine tmp r l) := by
              simp [parseBindsLoop, h0, hlr, hl0, hr0]
            rw [hres]
            exact ih (i + 1) (fstab ++ fstabLine tmp r l)

/-- A well-formed single pair `a=b` (no separators inside `a`, no colons
anywhere, both sides non-empty) compiles to exactly one fstab line. -/
theorem parseBinds_single_pair (a b root : List Char)
    (ha : '=' ∉ a) (hca : ':' ∉ a) (hcb : ':' ∉ b)
    (hna : a ≠ []) (hnb : b ≠ []) :
    parseBinds (a ++ '=' :: b) root = (fstabLine root b a, none) := by
  have hne : ¬ (a ++ '=' :: b).length = 0 := by simp
  have hsplit : stringsSplit ':' (a ++ '=' :: b) = [a ++ '=' :: b] := by
    apply stringsSplit_no_sep
    intro hmem
    rcases List.mem_append.1 hmem with h | h
    · exact hca h
    · rcases List.mem_cons.1 h with h | h
      · exact absurd h (by decide)
      · exact hcb h
  have hb : stringsSplitN2 '=' (a ++ '=' :: b) = [a, b] := stringsSplitN2_first '=' a b ha
  have ha0 : ¬ a.length = 0 := by simpa [List.length_eq_zero] using hna
  have hb0 : ¬ b.length = 0 := by simpa [List.length_eq_zero] using hnb
  simp [parseBinds, hne, hsplit, parseBindsLoop, hb, ha0, hb0]

/-! ### Bind-compiler claims -/

/-- C2 counterexample: the claim says the returned fragment is empty
whenever compilation fails; but for `"a=b:c="` the empty-remote failure at
entry 1 is returned together with the partial fstab built from entry 0. -/
theorem parseBinds_partial_fragment_on_error :
    (parseBinds "a=b:c=".data "/tmp".data).2 ≠ none ∧
    (parseBinds "a=b:c=".data "/tmp".data).1 ≠ [] := by decide

/-- C2 (amended): compilation aborts at the first invalid entry and
returns an error; the fragment returned alongside the error is empty when
the offending entry is zero-length (that branch returns `""` explicitly),
but an empty-local or empty-remote failure returns the partial fstab
accumulated from the preceding valid entries. -/
theorem parseBinds_error_fragment :
    (∀ (s tmp : List Char) (j : Nat),
      (parseBinds s tmp).2 = some (BindErr.zeroLength j) → (parseBinds s tmp).1 = []) ∧
    parseBinds "a=b:c=".data "/tmp".data =
      ("/tmp/cpu/b a none defaults,bind 0 0\n".data,
        some (BindErr.emptyRemote 1 "c=".data)) := by
  constructor
  · intro s tmp j hj
    by_cases hs : s.length = 0
    · simp [parseBinds, hs]
    · have h := (parseBindsLoop_errs tmp (stringsSplit ':' s) 0 []).1 j
      simp only [parseBinds, if_neg hs] at hj ⊢
      exact h hj
  · decide

/-- C2 witness: the zero-length-entry part of the amended theorem applied
to the spec `":"`, whose entry 0 is empty. -/
theorem parseBinds_error_fragment_witness :
    (parseBinds ":".data "/tmp".data).1 = [] :=
  parseBinds_error_fragment.1 ":".data "/tmp".data 0 (by decide)

/-- C9 (confirmed): the first-`=` split of any entry yields one or two
fields, so the two defensive error branches of `parseBinds` (empty field
array, more than two fields) are unreachable for every input spec. -/
theorem parseBinds_defensive_branches_unreachable :
    (∀ bind : List Char,
      (stringsSplitN2 '=' bind).length = 1 ∨ (stringsSplitN2 '=' bind).length = 2) ∧
    (∀ (s tmp : List Char) (i : Nat) (b : List Char),
      (parseBinds s tmp).2 ≠ some (BindErr.emptyElements i b) ∧
      (parseBinds s tmp).2 ≠ some (BindErr.tooMany i b)) := by
  constructor
  · intro bind
    rcases stringsSplitN2_shape '=' bind with ⟨x, hx⟩ | ⟨x, y, hxy⟩
    · exact Or.inl (by rw [hx]; rfl)
    · exact Or.inr (by rw [hxy]; rfl)
  · intro s tmp i b
    by_cases hs : s.length = 0
    · constructor <;> simp [parseBinds, hs]
    · have h := parseBindsLoop_errs tmp (stringsSplit ':' s) 0 []
      constructor
      · simpa only [parseBinds, if_neg hs] using h.2.1 i b
      · simpa only [parseBinds, if_neg hs] using h.2.2 i b

/-- C6 counterexample: the claim says the emitted line starts with the
verbatim text `{root}/cpu/{remote}`; but `filepath.Join` cleans the path,
so for remote `".."` and root `"/r"` the device field collapses to `/r`. -/
theorem parseBinds_join_cleans_remote_path :
    parseBinds "x=..".data "/r".data ≠
      ("/r/cpu/.. x none defaults,bind 0 0\n".data, none) := by decide

/-- C6 (amended): for non-empty `local` and `remote` containing neither
`=` nor `:`, and a non-empty root for which `root ++ "/cpu/" ++ remote`
is already a cleaned path (so `filepath.Join` leaves it verbatim),
`parseBinds "local=remote" root` succeeds with exactly the single line
`{root}/cpu/{remote} {local} none defaults,bind 0 0\n`. -/
theorem parseBinds_single_entry_line (localPath remotePath root : List Char)
    (hl : localPath ≠ []) (hr : remotePath ≠ [])
    (hle : '=' ∉ localPath) (hre : '=' ∉ remotePath)
    (hlc : ':' ∉ localPath) (hrc : ':' ∉ remotePath)
    (hroot : root ≠ [])
    (hclean : filepathClean (root ++ "/cpu/".data ++ remotePath) =
      root ++ "/cpu/".data ++ remotePath) :
    parseBinds (localPath ++ '=' :: remotePath) root =
      (root ++ "/cpu/".data ++ remotePath ++ " ".data ++ localPath
        ++ " none defaults,bind 0 0\n".data, none) := by
  rw [parseBinds_single_pair localPath remotePath root hle hlc hrc hl hr]
  have hni : root.isEmpty = false := by
    cases root with
    | nil => exact absurd rfl hroot
    | cons c cs => rfl
  have hdrop : [root, "cpu".data, remotePath].dropWhile (fun e => e.isEmpty) =
      [root, "cpu".data, remotePath] := by
    simp [List.dropWhile, hni]
  have hcpu : "cpu".data = ['c', 'p', 'u'] := rfl
  have hinfix : "/cpu/".data = ['/', 'c', 'p', 'u', '/'] := rfl
  have harg : stringsJoin ['/'] [root, "cpu".data, remotePath] =
      root ++ "/cpu/".data ++ remotePath := by
    simp [stringsJoin, hcpu, hinfix, List.append_assoc]
  have hjoin : filepathJoin [root, "cpu".data, remotePath] =
      root ++ "/cpu/".data ++ remotePath := by
    simp only [filepathJoin, hdrop, harg, hclean]
  simp [fstabLine, hjoin, List.append_assoc]

/-- C6 witness: the amended theorem applied at `local = "a"`,
`remote = "b"`, `root = "/tmp"`. -/
theorem parseBinds_single_entry_line_witness :
    parseBinds ("a".data ++ '=' :: "b".data) "/tmp".data =
      ("/tmp".data ++ "/cpu/".data ++ "b".data ++ " ".data ++ "a".data
        ++ " none defaults,bind 0 0\n".data, none) :=
  parseBinds_single_entry_line "a".data "b".data "/tmp".data (by decide) (by decide)
    (by decide) (by decide) (by decide) (by decide) (by decide) (by decide)

/-- C7 counterexample: the claim says every entry with more than one `=`
is accepted; but `"=a=b"` has two `=` signs and is rejected because its
first field (the local side) is empty. -/
theorem parseBinds_multi_eq_empty_local_rejected :
    (parseBinds "=a=b".data "/tmp".data).2 ≠ none := by decide

/-- C7 (amended): each entry is split on the first `=` only — the text
before the first `=` is the local side and the whole remainder, later `=`
characters included, is the remote side — and such entries are accepted
whenever both sides are non-empty (an empty side is still rejected by the
empty-local/empty-remote validation, whatever the number of `=` signs). -/
theorem parseBinds_first_eq_split_wins :
    (∀ a b : List Char, '=' ∉ a → stringsSplitN2 '=' (a ++ '=' :: b) = [a, b]) ∧
    (∀ a b root : List Char, '=' ∉ a → ':' ∉ a → ':' ∉ b → a ≠ [] → b ≠ [] →
      parseBinds (a ++ '=' :: b) root = (fstabLine root b a, none)) :=
  ⟨fun a b ha => stringsSplitN2_first '=' a b ha,
    fun a b root ha hca hcb hna hnb => parseBinds_single_pair a b root ha hca hcb hna hnb⟩

/-- C7 witness: the amended theorem applied to the entry `"a=b=c"`, whose
local side is `"a"` and whose remote side is `"b=c"`. -/
theorem parseBinds_first_eq_split_wins_witness :
    stringsSplitN2 '=' ("a".data ++ '=' :: "b=c".data) = ["a".data, "b=c".data] ∧
    parseBinds ("a".data ++ '=' :: "b=c".data) "/tmp".data =
      (fstabLine "/tmp".data "b=c".data "a".data, none) :=
  ⟨parseBinds_first_eq_split_wins.1 "a".data "b=c".data (by decide),
    parseBinds_first_eq_split_wins.2 "a".data "b=c".data "/tmp".data (by decide)
      (by decide) (by decide) (by decide) (by decide)⟩

/-! ### Fragment-joiner claims -/

/-- C3 counterexample: the claim says `join([""])` returns `""`; on the
code empty fragments are only skipped by the trimming loop, so the join
still emits them and `join([""])` is `"\n"`. -/
theorem joinFSTab_empty_fragment_not_skipped :
    joinFSTab [[]] ≠ [] := by decide

/-- C3 (amended): `join([])` returns `""`, but empty fragments are skipped
only by the trimming loop, not removed from the join: `join([""])` is
`"\n"`, `join(["", ""])` is `"\n\n"`, and an empty fragment among
non-empty ones contributes a blank line, as in
`join(["a", "", "b"]) = "a\n\nb\n"`. -/
theorem joinFSTab_empty_fragments_behavior :
    joinFSTab [] = [] ∧ joinFSTab [[]] = ['\n'] ∧ joinFSTab [[], []] = ['\n', '\n'] ∧
    joinFSTab ["a".data, [], "b".data] = "a\n\nb\n".data := by decide

/-- Dropping a prefix satisfying `p` is idempotent. -/
theorem dropWhile_dropWhile (p : Char → Bool) :
    ∀ l : List Char, (l.dropWhile p).dropWhile p = l.dropWhile p := by
  intro l
  induction l with
  | nil => rfl
  | cons a l ih =>
    by_cases h : p a
    · simp [List.dropWhile_cons, h, ih]
    · simp [List.dropWhile_cons, h]

/-- Right-trimming newlines is idempotent. -/
theorem trimRightNL_idem (s : List Char) :
    stringsTrimRightNL (stringsTrimRightNL s) = stringsTrimRightNL s := by
  simp [stringsTrimRightNL, List.reverse_reverse, dropWhile_dropWhile]

/-- A trailing newline is removed by the right trim. -/
theorem trimRightNL_append_newline (u : List Char) :
    stringsTrimRightNL (u ++ ['\n']) = stringsTrimRightNL u := by
  simp [stringsTrimRightNL, List.reverse_append, List.dropWhile_cons]

/-- Appending after a non-empty trim fixed point stays a fixed point. -/
theorem trimRightNL_append_fixed (u v : List Char) (hv : v ≠ [])
    (hfix : stringsTrimRightNL v = v) :
    stringsTrimRightNL (u ++ v) = u ++ v := by
  obtain ⟨c, w, hw⟩ : ∃ c w, v.reverse = c :: w := by
    cases hvr : v.reverse with
    | nil => exact absurd (List.reverse_eq_nil_iff.1 hvr) hv
    | cons c w => exact ⟨c, w, rfl⟩
  have hdrop : v.reverse.dropWhile (fun x => x == '\n') = v.reverse := by
    have h2 := congrArg List.reverse hfix
    simpa [stringsTrimRightNL, List.reverse_reverse] using h2
  have hc : (c == '\n') = false := by
    rw [hw] at hdrop
    have h2 := List.dropWhile_eq_self_iff.1 hdrop (by simp)
    simpa using h2
  have hkeep : (u ++ v).reverse.dropWhile (fun x => x == '\n') = (u ++ v).reverse := by
    rw [List.reverse_append, hw]
    simp [List.cons_append, List.dropWhile_cons, hc]
  calc stringsTrimRightNL (u ++ v)
      = ((u ++ v).reverse.dropWhile (fun x => x == '\n')).reverse := rfl
    _ = (u ++ v).reverse.reverse := by rw [hkeep]
    _ = u ++ v := List.reverse_reverse _

/-- A join headed by a non-empty fragment is non-empty. -/
theorem stringsJoin_ne_nil (sep : List Char) (t : List Char)
    (rest : List (List Char)) (ht : t ≠ []) :
    stringsJoin sep (t :: rest) ≠ [] := by
  cases rest with
  | nil => simpa [stringsJoin] using ht
  | cons t2 r2 =>
    intro hcontra
    rw [show stringsJoin sep (t :: t2 :: r2) =
      t ++ sep ++ stringsJoin sep (t2 :: r2) from rfl] at hcontra
    exact ht (List.append_eq_nil.1 (List.append_eq_nil.1 hcontra).1).1

/-- A join of non-empty trim fixed points is itself a trim fixed point. -/
theorem trimRightNL_stringsJoin_fixed :
    ∀ ts : List (List Char), ts ≠ [] →
      (∀ t ∈ ts, t ≠ [] ∧ stringsTrimRightNL t = t) →
      stringsTrimRightNL (stringsJoin ['\n'] ts) = stringsJoin ['\n'] ts := by
  intro ts
  induction ts with
  | nil => intro h; exact absurd rfl h
  | cons t rest ih =>
    intro _ hall
    cases rest with
    | nil =>
      have h1 := hall t (List.mem_cons_self t [])
      simpa [stringsJoin] using h1.2
    | cons t2 r2 =>
      have hv := ih (by simp) (fun x hx => hall x (List.mem_cons_of_mem t hx))
      have hvne : stringsJoin ['\n'] (t2 :: r2) ≠ [] :=
        stringsJoin_ne_nil ['\n'] t2 r2 (hall t2 (by simp)).1
      have heq : stringsJoin ['\n'] (t :: t2 :: r2) =
          (t ++ ['\n']) ++ stringsJoin ['\n'] (t2 :: r2) := rfl
      rw [heq]
      exact trimRightNL_append_fixed (t ++ ['\n']) _ hvne hv

/-- C8 counterexample: the claim quantifies over every fragment list, but
at `xs = []` rejoining the joined output differs:
`join([join([])]) = join([""]) = "\n"` while `join([]) = ""`. -/
theorem joinFSTab_rejoin_empty_differs :
    joinFSTab [joinFSTab []] ≠ joinFSTab [] := by decide

/-- C8 (amended): rejoining already-joined output is the identity for
every non-empty fragment list whose fragments are non-empty after
stripping trailing newlines: `join([join(xs)]) = join(xs)`; in particular
`join(["a\n\n", "b"]) = "a\nb\n"` and
`join([join(["a","b"])]) = join(["a","b"])`.  For `xs = []`, or when some
fragment trims to empty, the equation fails. -/
theorem joinFSTab_idempotent_nonempty :
    (∀ ts : List (List Char), ts ≠ [] → (∀ t ∈ ts, stringsTrimRightNL t ≠ []) →
      joinFSTab [joinFSTab ts] = joinFSTab ts) ∧
    joinFSTab ["a\n\n".data, "b".data] = "a\nb\n".data ∧
    joinFSTab [joinFSTab ["a".data, "b".data]] = joinFSTab ["a".data, "b".data] := by
  refine ⟨?_, by decide, by decide⟩
  intro ts hne h
  have hf : ts.map (fun t => if t.length = 0 then t else stringsTrimRightNL t) =
      ts.map stringsTrimRightNL := by
    apply List.map_congr_left
    intro t ht
    have ht0 : ¬ t.length = 0 := by
      rw [List.length_eq_zero]
      intro e
      exact h t ht (by simp [e, stringsTrimRightNL])
    rw [if_neg ht0]
  have hallfix : ∀ x ∈ ts.map stringsTrimRightNL,
      x ≠ [] ∧ stringsTrimRightNL x = x := by
    intro x hx
    rcases List.mem_map.1 hx with ⟨t, ht, rfl⟩
    exact ⟨h t ht, trimRightNL_idem t⟩
  have hmapne : ts.map stringsTrimRightNL ≠ [] := by
    intro e
    exact hne (by simpa using e)
  have hufix : stringsTrimRightNL (stringsJoin ['\n'] (ts.map stringsTrimRightNL)) =
      stringsJoin ['\n'] (ts.map stringsTrimRightNL) :=
    trimRightNL_stringsJoin_fixed (ts.map stringsTrimRightNL) hmapne hallfix
  have h1 : joinFSTab ts = stringsJoin ['\n'] (ts.map stringsTrimRightNL) ++ ['\n'] := by
    simp only [joinFSTab, hf]
    rw [if_neg (by simpa [List.length_eq_zero] using hne)]
  have h2 : joinFSTab [stringsJoin ['\n'] (ts.map stringsTrimRightNL) ++ ['\n']] =
      stringsTrimRightNL (stringsJoin ['\n'] (ts.map stringsTrimRightNL) ++ ['\n'])
        ++ ['\n'] := by
    simp only [joinFSTab, List.length_cons, List.map]
    rw [if_neg (by simp)]
    rw [if_neg (by simp)]
    rfl
  rw [h1, h2, trimRightNL_append_newline, hufix]

/-- C8 witness: the amended theorem applied at `xs = ["x\n"]`. -/
theorem joinFSTab_idempotent_nonempty_witness :
    joinFSTab [joinFSTab ["x\n".data]] = joinFSTab ["x\n".data] :=
  joinFSTab_idempotent_nonempty.1 ["x\n".data] (by decide) (by decide)

/-- C9 witness: the unreachability theorem applied at a concrete spec. -/
theorem parseBinds_defensive_branches_unreachable_witness :
    (parseBinds "a=b".data "/tmp".data).2 ≠ some (BindErr.tooMany 0 "a=b".data) :=
  (parseBinds_defensive_branches_unreachable.2 "a=b".data "/tmp".data 0 "a=b".data).2
